import Mathlib

/-!
Shallow embedding of the `Matrix` component of the repository
(`src/linear_algebra/matrix.rs`) together with the external `Vector`
collaborator it is built on.  Rust panics are modelled as values of an
error type, so every fallible operation returns `Except MatrixError`.
The `f32` scalars are modelled as integers: every concrete scalar
appearing in the specification's claims is a small integer, and on such
values `f32` arithmetic is exact.
-/

namespace MathRepo

/-- Modelled from the spec: the external `Vector` collaborator (not part of
`src/`) is a 1-D numeric container; its payload is embedded as a list of
integer scalars standing for the stored `f32` values. -/
abbrev Vec := List ℤ

/-- Each `panic!` site of the Rust code is modelled as a distinct error value.
`shapeError` carries the expected and the actual size, the two
`indexOutOfBounds` errors carry the maximal valid index reported by the
panic message, `vectorIndexError` stands for the Rust `Vec` indexing panic
inside the external `Vector` (modelled from the spec), and `outOfFuel` is a
modelling artefact of the fuel-based determinant recursion (unreachable for
the fuel supplied by `Matrix.det`). -/
inductive MatrixError where
  | shapeError (expected got : Nat)
  | indexOutOfBoundsRow (maxRow : Nat)
  | indexOutOfBoundsCol (maxCol : Nat)
  | vectorIndexError
  | notSquare
  | degenerateMatrix
  | outOfFuel
  deriving DecidableEq

/-- Modelled from the spec: `Vector::index(i)` — indexed get, panicking when
`i` is outside the vector. -/
def Vec.index (v : Vec) (i : Nat) : Except MatrixError ℤ :=
  match v.get? i with
  | some q => .ok q
  | none => .error .vectorIndexError

/-- Modelled from the spec: `Vector::set_index(i, val)` — indexed set,
panicking when `i` is outside the vector. -/
def Vec.set_index (v : Vec) (i : Nat) (val : ℤ) : Except MatrixError Vec :=
  if i < v.length then .ok (v.set i val) else .error .vectorIndexError

/-- Sequential monadic map over `Except`, mirroring a Rust loop that pushes
one result per iteration and propagates the first panic. -/
def listMapE {α β : Type} (f : α → Except MatrixError β) :
    List α → Except MatrixError (List β)
  | [] => .ok []
  | a :: l => do
    let b ← f a
    let bs ← listMapE f l
    .ok (b :: bs)

/-- Sequential monadic fold over `Except`, mirroring a Rust loop that updates
a state and propagates the first panic. -/
def listFoldE {σ α : Type} (f : σ → α → Except MatrixError σ) :
    σ → List α → Except MatrixError σ
  | s, [] => .ok s
  | s, a :: l => do
    let s2 ← f s a
    listFoldE f s2 l

/-- The `Matrix` struct of the source: physical shape metadata `cols`/`rows`,
the backing vector `matrix_flatt`, and the lazy-transpose flag. -/
structure Matrix where
  cols : Nat
  rows : Nat
  matrix_flatt : Vec
  is_transpose : Bool
  deriving DecidableEq

namespace Matrix

/-- `Matrix::cols()` — the logical column count, swapped when transposed. -/
def colsL (m : Matrix) : Nat := if m.is_transpose then m.rows else m.cols

/-- `Matrix::rows()` — the logical row count, swapped when transposed. -/
def rowsL (m : Matrix) : Nat := if m.is_transpose then m.cols else m.rows

/-- `Matrix::is_square()`. -/
def is_square (m : Matrix) : Bool := m.colsL == m.rowsL

/-- `Matrix::transpose()` — toggles the flag, no data movement. -/
def transpose (m : Matrix) : Matrix := { m with is_transpose := !m.is_transpose }

/-- `Matrix::index(row, col)`: swap the coordinates when transposed, check
them against the physical bounds (note the check is `rows < row`, allowing
`row == rows`), then read the backing vector at `row * rows + col`. -/
def index (m : Matrix) (row col : Nat) : Except MatrixError ℤ :=
  let row2 := if m.is_transpose then col else row
  let col2 := if m.is_transpose then row else col
  if m.rows < row2 then .error (.indexOutOfBoundsRow (m.rows - 1))
  else if m.cols < col2 then .error (.indexOutOfBoundsCol (m.cols - 1))
  else Vec.index m.matrix_flatt (row2 * m.rows + col2)

/-- `Matrix::set_index(row, col, val)`: swap the coordinates when transposed,
check them against the physical bounds (here the check is `rows < row + 1`),
then write the backing vector at `row * rows + col`. -/
def set_index (m : Matrix) (row col : Nat) (val : ℤ) : Except MatrixError Matrix :=
  let row2 := if m.is_transpose then col else row
  let col2 := if m.is_transpose then row else col
  if m.rows < row2 + 1 then .error (.indexOutOfBoundsRow (m.rows - 1))
  else if m.cols < col2 + 1 then .error (.indexOutOfBoundsCol (m.cols - 1))
  else
    match Vec.set_index m.matrix_flatt (row2 * m.rows + col2) val with
    | .ok v => .ok { m with matrix_flatt := v }
    | .error e => .error e

/-- `Matrix::get_row(row)`: the physical row, gathered with stride `rows`. -/
def get_row (m : Matrix) (row : Nat) : Except MatrixError Vec :=
  if m.rows < row + 1 then .error (.indexOutOfBoundsRow (m.rows - 1))
  else listMapE (fun i => Vec.index m.matrix_flatt (i * m.rows + row)) (List.range m.cols)

/-- `Matrix::get_col(col)`: the physical column, a contiguous run of the
backing vector. -/
def get_col (m : Matrix) (col : Nat) : Except MatrixError Vec :=
  if m.cols < col + 1 then .error (.indexOutOfBoundsCol (m.cols - 1))
  else listMapE (fun i => Vec.index m.matrix_flatt (col * m.rows + i)) (List.range m.rows)

/-- `Matrix::col(col)` — dispatches on the transpose flag. -/
def col (m : Matrix) (c : Nat) : Except MatrixError Vec :=
  if m.is_transpose then m.get_row c else m.get_col c

/-- `Matrix::row(row)` — dispatches on the transpose flag. -/
def row (m : Matrix) (r : Nat) : Except MatrixError Vec :=
  if m.is_transpose then m.get_col r else m.get_row r

/-- `Matrix::matrix_flatt()` — the logical flattening: the stored buffer when
untransposed, otherwise recomputed by concatenating `col(i)` for every
physical row index `i`. -/
def flattL (m : Matrix) : Except MatrixError Vec :=
  if m.is_transpose then do
    let cs ← listMapE m.col (List.range m.rows)
    .ok cs.flatten
  else .ok m.matrix_flatt

/-- `Matrix::new`: `cols` is the outer length, `rows` the first inner length;
any row of a different length is a shape panic (`vec[0]` on an empty input is
the Rust index panic); the inner lists are laid out contiguously. -/
def new (vec : List (List ℤ)) : Except MatrixError Matrix :=
  match vec.head? with
  | none => .error .vectorIndexError
  | some first =>
    let rows := first.length
    match vec.find? (fun c => c.length != rows) with
    | some bad => .error (.shapeError rows bad.length)
    | none => .ok ⟨vec.length, rows, vec.flatten, false⟩

/-- `Matrix::new_flatt`. -/
def new_flatt (flatt : Vec) (cols rows : Nat) : Except MatrixError Matrix :=
  if cols * rows ≠ flatt.length then .error (.shapeError (cols * rows) flatt.length)
  else .ok ⟨cols, rows, flatt, false⟩

/-- `Matrix::new_zero` (the external `Vector::new_zero` is modelled from the
spec as a zero list of the requested length). -/
def new_zero (cols rows : Nat) : Matrix :=
  ⟨cols, rows, List.replicate (cols * rows) 0, false⟩

/-- `Matrix::new_outer`: entry `(i, j)` is `a[i] * b[j]`, fed to `new`. -/
def new_outer (vector1 vector2 : Vec) : Except MatrixError Matrix :=
  new (vector1.map (fun a => vector2.map (fun b => a * b)))

/-- A scalar broadcast over the backing vector; the external `Vector` scalar
operations are modelled from the spec as elementwise maps.  `add_scalar`,
`sub_scalar`, `mul_scalar`, `div_scalar` and `apply_func_val` are its
instances. -/
def scalar_op (f : ℤ → ℤ) (m : Matrix) : Matrix :=
  { m with matrix_flatt := m.matrix_flatt.map f }

/-- `Matrix::add_scalar`. -/
def add_scalar (m : Matrix) (k : ℤ) : Matrix := m.scalar_op (fun x => x + k)

/-- `Matrix::sub_scalar`. -/
def sub_scalar (m : Matrix) (k : ℤ) : Matrix := m.scalar_op (fun x => x - k)

/-- `Matrix::mul_scalar`. -/
def mul_scalar (m : Matrix) (k : ℤ) : Matrix := m.scalar_op (fun x => x * k)

/-- `Matrix::div_scalar` (integer division stands in for the `f32` one). -/
def div_scalar (m : Matrix) (k : ℤ) : Matrix := m.scalar_op (fun x => x / k)

/-- `Matrix::apply_func_val`. -/
def apply_func_val (m : Matrix) (f : ℤ → ℤ) : Matrix := m.scalar_op f

end Matrix

/-- The free function `check_vector`: panics unless the vector length equals
the logical `rows()`; the panic message carries the physical `rows` field. -/
def check_vector (mat : Matrix) (vec : Vec) : Except MatrixError Unit :=
  if vec.length ≠ mat.rowsL then .error (.shapeError mat.rows vec.length) else .ok ()

/-- The free function `check_matrix`: panics unless the logical `rows()` and
`cols()` agree; the panic messages carry the physical fields. -/
def check_matrix (mat1 mat2 : Matrix) : Except MatrixError Unit :=
  if mat1.rowsL ≠ mat2.rowsL then .error (.shapeError mat1.rows mat2.rows)
  else if mat1.colsL ≠ mat2.colsL then .error (.shapeError mat1.cols mat2.cols)
  else .ok ()

/-- The free function `check_square`: `NotSquare` unless `is_square()`, then
the degenerate-matrix panic when the single dimension is 1. -/
def check_square (mat : Matrix) : Except MatrixError Unit :=
  if !mat.is_square then .error .notSquare
  else if mat.rowsL = 1 then .error .degenerateMatrix
  else .ok ()

namespace Matrix

/-- The common body of `add_vec`/`sub_vec`/`mul_vec`/`div_vec`: after
`check_vector`, loop `row` over `0..rows()-1` and `col` over `0..cols()-1`,
combining `index(row, col)` with `vector.index(row)` through `set_index`. -/
def vec_op (f : ℤ → ℤ → ℤ) (m : Matrix) (vector : Vec) : Except MatrixError Matrix :=
  match check_vector m vector with
  | .error e => .error e
  | .ok _ =>
    listFoldE
      (fun acc r =>
        listFoldE
          (fun acc2 c => do
            let a ← acc2.index r c
            let b ← Vec.index vector r
            acc2.set_index r c (f a b))
          acc (List.range (acc.colsL - 1)))
      m (List.range (m.rowsL - 1))

/-- `Matrix::add_vec`. -/
def add_vec (m : Matrix) (v : Vec) : Except MatrixError Matrix := m.vec_op (· + ·) v

/-- `Matrix::sub_vec`. -/
def sub_vec (m : Matrix) (v : Vec) : Except MatrixError Matrix := m.vec_op (· - ·) v

/-- `Matrix::mul_vec`. -/
def mul_vec (m : Matrix) (v : Vec) : Except MatrixError Matrix := m.vec_op (· * ·) v

/-- `Matrix::div_vec` (integer division stands in for the `f32` one). -/
def div_vec (m : Matrix) (v : Vec) : Except MatrixError Matrix := m.vec_op (· / ·) v

/-- The common body of `add_mat`/`sub_mat`/`mul_mat`/`div_mat`: after
`check_matrix`, replace the storage with the elementwise combination of the
two logical flattenings (the external `Vector` elementwise operators are
modelled from the spec as `zipWith`), clear the transpose flag and adopt the
operand's logical shape. -/
def mat_op (f : ℤ → ℤ → ℤ) (m other : Matrix) : Except MatrixError Matrix :=
  match check_matrix m other with
  | .error e => .error e
  | .ok _ => do
    let a ← m.flattL
    let b ← other.flattL
    .ok ⟨other.colsL, other.rowsL, List.zipWith f a b, false⟩

/-- `Matrix::add_mat`. -/
def add_mat (m other : Matrix) : Except MatrixError Matrix := m.mat_op (· + ·) other

/-- `Matrix::sub_mat`. -/
def sub_mat (m other : Matrix) : Except MatrixError Matrix := m.mat_op (· - ·) other

/-- `Matrix::mul_mat`. -/
def mul_mat (m other : Matrix) : Except MatrixError Matrix := m.mat_op (· * ·) other

/-- `Matrix::div_mat` (integer division stands in for the `f32` one). -/
def div_mat (m other : Matrix) : Except MatrixError Matrix := m.mat_op (· / ·) other

/-- `Matrix::finde_sub(row, col)`: scan the full `index(i, j)` space in
`i`-major order, skip `i == col || j == row`, and rebuild with `new_flatt`
at shape `(cols()-1, rows()-1)`. -/
def finde_sub (m : Matrix) (row col : Nat) : Except MatrixError Matrix := do
  let parts ←
    listMapE
      (fun i =>
        listMapE (fun j => m.index i j)
          ((List.range m.rowsL).filter (fun j => !(i == col || j == row))))
      (List.range m.colsL)
  new_flatt parts.flatten (m.colsL - 1) (m.rowsL - 1)

/-- The body of `Matrix::det` with the recursive call abstracted:
`check_square`, the `2 × 2` base case, and otherwise the signed accumulation
of `finde_sub(0, col).det() * (-1)^col * index(0, col)` over `col` in
`0..cols()`. -/
def detStep (rec : Matrix → Except MatrixError ℤ) (m : Matrix) :
    Except MatrixError ℤ :=
  match check_square m with
  | .error e => .error e
  | .ok _ =>
    if m.rowsL = 2 then do
      let a ← m.index 0 0
      let b ← m.index 1 1
      let c ← m.index 1 0
      let d ← m.index 0 1
      .ok (a * b - c * d)
    else do
      let terms ←
        listMapE
          (fun c => do
            let sub ← m.finde_sub 0 c
            let subDet ← rec sub
            let a ← m.index 0 c
            .ok (subDet * (if c % 2 = 0 then (1 : ℤ) else -1) * a))
          (List.range m.colsL)
      .ok terms.sum

/-- `Matrix::det`, fuel-indexed.  The fuel only bounds the recursion depth;
`Matrix.det` supplies `rows()`, which is enough for every reachable call,
so `outOfFuel` never surfaces. -/
def detAux : Nat → Matrix → Except MatrixError ℤ
  | 0, m => detStep (fun _ => .error .outOfFuel) m
  | fuel + 1, m => detStep (detAux fuel) m

/-- `Matrix::det`. -/
def det (m : Matrix) : Except MatrixError ℤ := detAux m.rowsL m

/-- The `PartialEq` instance of `Matrix`: logical `cols()`, logical `rows()`
and the logical flattenings are compared; the transpose flag and the raw
buffer are never inspected directly. -/
def matEq (m other : Matrix) : Prop :=
  m.colsL = other.colsL ∧ m.rowsL = other.rowsL ∧ m.flattL = other.flattL

/-- The shape invariant of the data model: the backing vector has exactly
`cols * rows` elements (physical fields). -/
def Valid (m : Matrix) : Prop := m.matrix_flatt.length = m.cols * m.rows

end Matrix

/-- Modelled from the spec: the IEEE-754 binary32 bit pattern (as one 32-bit
word) of an exactly representable integer scalar, `none` otherwise.  The scan
finds the biased exponent `i + 1` with `2 ^ 23 ≤ |q| * 2 ^ (149 - i) < 2 ^ 24`
and packs sign, exponent and the 23 mantissa bits. -/
def f32Word? (q : ℤ) : Option Nat :=
  if q = 0 then some 0
  else
    let s : Nat := if q < 0 then 1 else 0
    let n : Nat := q.natAbs
    (List.range 254).findSome? (fun i =>
      let top := n * 2 ^ 149
      let bot := 2 ^ i
      if top % bot = 0 ∧ 2 ^ 23 ≤ top / bot ∧ top / bot < 2 ^ 24 then
        some (s * 2 ^ 31 + (i + 1) * 2 ^ 23 + (top / bot - 2 ^ 23))
      else none)

/-- The four bytes of a 32-bit word in native (little-endian) order, matching
`f32::to_ne_bytes` on the reference host. -/
def bytesOfWord (w : Nat) : List Nat :=
  [w % 256, w / 256 % 256, w / 256 ^ 2 % 256, w / 256 ^ 3 % 256]

/-- The native-endian byte quadruple of an exactly representable scalar. -/
def f32Bytes? (q : ℤ) : Option (List Nat) := (f32Word? q).map bytesOfWord

/-- Sequential `Option`-valued map, mirroring a Rust loop over fallible
encodings. -/
def listMapO {α β : Type} (f : α → Option β) : List α → Option (List β)
  | [] => some []
  | a :: l => do
    let b ← f a
    let bs ← listMapO f l
    some (b :: bs)

/-- Modelled from the spec: `Vector::bytes()` — a 4-byte length prefix
followed by the native-endian `f32` bytes of each element. -/
def Vec.bytes (v : Vec) : Option (List Nat) := do
  let p ← f32Bytes? (v.length : ℤ)
  let es ← listMapO f32Bytes? v
  some (p ++ es.flatten)

/-- `Matrix::bytes()` (gpu profile): `rows()` as `f32` bytes, then `cols()`,
then the logical flattening's `Vector::bytes()` with the first 4 bytes (the
length prefix) skipped. -/
def Matrix.bytes (m : Matrix) : Option (List Nat) :=
  match m.flattL with
  | .error _ => none
  | .ok fl => do
    let rb ← f32Bytes? (m.rowsL : ℤ)
    let cb ← f32Bytes? (m.colsL : ℤ)
    let vb ← Vec.bytes fl
    some (rb ++ cb ++ vb.drop 4)

/-- The physical offset addressed by `index`/`set_index` at logical
`(row, col)` on a square matrix of dimension `n` with transpose flag `t`:
the swap turns `row * rows + col` into `col * rows + row`. -/
def sigmaOff (t : Bool) (n row col : Nat) : Nat :=
  if t then col * n + row else row * n + col

/-! ## Basic lemmas about the embedded operations -/

theorem Vec.index_ok (v : Vec) (i : Nat) (h : i < v.length) :
    Vec.index v i = .ok (v.getD i 0) := by
  have hg : v.get? i = some (v.getD i 0) := by
    rw [List.getD_eq_getElem v 0 h, List.get?_eq_getElem?, List.getElem?_eq_getElem h]
  unfold Vec.index
  rw [hg]

theorem Vec.index_oob (v : Vec) (i : Nat) (h : v.length ≤ i) :
    Vec.index v i = .error .vectorIndexError := by
  have hg : v.get? i = none := by
    rw [List.get?_eq_getElem?]
    exact List.getElem?_eq_none (by omega)
  unfold Vec.index
  rw [hg]

theorem Vec.set_index_ok (v : Vec) (i : Nat) (a : ℤ) (h : i < v.length) :
    Vec.set_index v i a = .ok (v.set i a) := by
  simp [Vec.set_index, h]

theorem getD_set_self (l : List ℤ) (i : Nat) (a : ℤ) (h : i < l.length) :
    (l.set i a).getD i 0 = a := by
  simp [List.getD_eq_getElem?_getD, List.getElem?_set_self, h]

theorem getD_set_ne (l : List ℤ) (i j : Nat) (a : ℤ) (h : i ≠ j) :
    (l.set i a).getD j 0 = l.getD j 0 := by
  simp [List.getD_eq_getElem?_getD, List.getElem?_set_ne h]

theorem bindOk {α β : Type} (a : α) (f : α → Except MatrixError β) :
    (Except.ok a >>= f) = f a := rfl

theorem obindSome {α β : Type} (a : α) (f : α → Option β) :
    ((some a >>= f) : Option β) = f a := rfl

theorem listMapE_eq_map {α β : Type} (f : α → Except MatrixError β) (g : α → β)
    (l : List α) (h : ∀ a ∈ l, f a = .ok (g a)) :
    listMapE f l = .ok (l.map g) := by
  induction l with
  | nil => rfl
  | cons a l ih =>
    have ha := h a (by simp)
    have hrest := ih (fun x hx => h x (by simp [hx]))
    simp only [listMapE, ha, hrest]
    rfl

theorem listMapE_ok_exists {α β : Type} (f : α → Except MatrixError β)
    (l : List α) (h : ∀ a ∈ l, ∃ b, f a = .ok b) :
    ∃ bs, listMapE f l = .ok bs ∧ bs.length = l.length ∧
      ∀ b ∈ bs, ∃ a ∈ l, f a = .ok b := by
  induction l with
  | nil => exact ⟨[], rfl, rfl, by simp⟩
  | cons a l ih =>
    obtain ⟨b, hb⟩ := h a (by simp)
    obtain ⟨bs, hbs, hlen, hmem⟩ := ih (fun x hx => h x (by simp [hx]))
    refine ⟨b :: bs, ?_, by simp [hlen], ?_⟩
    · simp only [listMapE, hb, hbs]
      rfl
    · intro x hx
      rcases List.mem_cons.1 hx with hx | hx
      · exact ⟨a, by simp, hx ▸ hb⟩
      · obtain ⟨a2, ha2, hfa⟩ := hmem x hx
        exact ⟨a2, by simp [ha2], hfa⟩

theorem listFoldE_shape {α : Type} (step : Matrix → α → Except MatrixError Matrix)
    (H : ∀ s a s2, step s a = .ok s2 → s2.cols = s.cols ∧ s2.rows = s.rows ∧
      s2.is_transpose = s.is_transpose ∧
      s2.matrix_flatt.length = s.matrix_flatt.length) :
    ∀ (l : List α) (s s2 : Matrix), listFoldE step s l = .ok s2 →
      s2.cols = s.cols ∧ s2.rows = s.rows ∧ s2.is_transpose = s.is_transpose ∧
        s2.matrix_flatt.length = s.matrix_flatt.length := by
  intro l
  induction l with
  | nil =>
    intro s s2 hs
    simp only [listFoldE] at hs
    cases hs
    exact ⟨rfl, rfl, rfl, rfl⟩
  | cons a l ih =>
    intro s s2 hs
    simp only [listFoldE] at hs
    cases hmid : step s a with
    | error e => rw [hmid] at hs; cases hs
    | ok smid =>
      rw [hmid] at hs
      obtain ⟨h1, h2, h3, h4⟩ := ih smid s2 hs
      obtain ⟨g1, g2, g3, g4⟩ := H s a smid hmid
      exact ⟨h1.trans g1, h2.trans g2, h3.trans g3, h4.trans g4⟩

theorem flatten_length_uniform {α : Type} (vss : List (List α)) (k : Nat)
    (h : ∀ l ∈ vss, l.length = k) : vss.flatten.length = vss.length * k := by
  induction vss with
  | nil => simp
  | cons l ls ih =>
    have hl := h l (by simp)
    have hrest := ih (fun x hx => h x (by simp [hx]))
    simp [hl, hrest, Nat.succ_mul, Nat.add_comm]

theorem flatten_getD_uniform (vss : List (List ℤ)) (k : Nat)
    (h : ∀ l ∈ vss, l.length = k) :
    ∀ r c : Nat, r < vss.length → c < k →
      vss.flatten.getD (r * k + c) 0 = (vss.getD r []).getD c 0 := by
  induction vss with
  | nil => intro r c hr _; simp at hr
  | cons l ls ih =>
    intro r c hr hc
    have hl := h l (by simp)
    cases r with
    | zero =>
      simp only [List.flatten_cons, List.getD_cons_zero, Nat.zero_mul, Nat.zero_add]
      exact List.getD_append l ls.flatten 0 c (by omega)
    | succ r =>
      have hoff : (r + 1) * k + c = l.length + (r * k + c) := by
        have : (r + 1) * k = r * k + k := by ring
        omega
      rw [List.flatten_cons, hoff, List.getD_append_right l ls.flatten 0 _ (by omega)]
      have : l.length + (r * k + c) - l.length = r * k + c := by omega
      rw [this, List.getD_cons_succ]
      exact ih (fun x hx => h x (by simp [hx])) r c (by simpa using hr) hc

theorem new_ok_elim (vss : List (List ℤ)) (m : Matrix)
    (h : Matrix.new vss = .ok m) :
    m.cols = vss.length ∧ m.matrix_flatt = vss.flatten ∧ m.is_transpose = false ∧
      ∀ l ∈ vss, l.length = m.rows := by
  cases hh : vss.head? with
  | none => simp [Matrix.new, hh] at h
  | some first =>
    cases hf : vss.find? (fun c => c.length != first.length) with
    | some bad => simp [Matrix.new, hh, hf] at h
    | none =>
      simp only [Matrix.new, hh, hf] at h
      cases h
      refine ⟨rfl, rfl, rfl, ?_⟩
      intro l hl
      have := List.find?_eq_none.1 hf l hl
      simpa using this

theorem index_eval (m : Matrix) (row col row2 col2 : Nat)
    (e1 : row2 = if m.is_transpose then col else row)
    (e2 : col2 = if m.is_transpose then row else col)
    (h1 : ¬ m.rows < row2) (h2 : ¬ m.cols < col2)
    (h3 : row2 * m.rows + col2 < m.matrix_flatt.length) :
    m.index row col = .ok (m.matrix_flatt.getD (row2 * m.rows + col2) 0) := by
  subst e1; subst e2
  simp only [Matrix.index]
  rw [if_neg h1, if_neg h2, Vec.index_ok _ _ h3]

theorem index_err_row (m : Matrix) (row col row2 : Nat)
    (e1 : row2 = if m.is_transpose then col else row)
    (h1 : m.rows < row2) :
    m.index row col = .error (.indexOutOfBoundsRow (m.rows - 1)) := by
  subst e1
  simp only [Matrix.index]
  rw [if_pos h1]

theorem index_vec_err (m : Matrix) (row col row2 col2 : Nat)
    (e1 : row2 = if m.is_transpose then col else row)
    (e2 : col2 = if m.is_transpose then row else col)
    (h1 : ¬ m.rows < row2) (h2 : ¬ m.cols < col2)
    (h3 : m.matrix_flatt.length ≤ row2 * m.rows + col2) :
    m.index row col = .error .vectorIndexError := by
  subst e1; subst e2
  simp only [Matrix.index]
  rw [if_neg h1, if_neg h2, Vec.index_oob _ _ h3]

theorem index_err_col (m : Matrix) (row col row2 col2 : Nat)
    (e1 : row2 = if m.is_transpose then col else row)
    (e2 : col2 = if m.is_transpose then row else col)
    (h1 : ¬ m.rows < row2) (h2 : m.cols < col2) :
    m.index row col = .error (.indexOutOfBoundsCol (m.cols - 1)) := by
  subst e1; subst e2
  simp only [Matrix.index]
  rw [if_neg h1, if_pos h2]

theorem set_index_eval (m : Matrix) (row col row2 col2 : Nat) (v : ℤ)
    (e1 : row2 = if m.is_transpose then col else row)
    (e2 : col2 = if m.is_transpose then row else col)
    (h1 : ¬ m.rows < row2 + 1) (h2 : ¬ m.cols < col2 + 1)
    (h3 : row2 * m.rows + col2 < m.matrix_flatt.length) :
    m.set_index row col v =
      .ok { m with matrix_flatt := m.matrix_flatt.set (row2 * m.rows + col2) v } := by
  subst e1; subst e2
  simp only [Matrix.set_index]
  rw [if_neg h1, if_neg h2, Vec.set_index_ok _ _ _ h3]

theorem set_index_err_row (m : Matrix) (row col row2 : Nat) (v : ℤ)
    (e1 : row2 = if m.is_transpose then col else row)
    (h1 : m.rows < row2 + 1) :
    m.set_index row col v = .error (.indexOutOfBoundsRow (m.rows - 1)) := by
  subst e1
  simp only [Matrix.set_index]
  rw [if_pos h1]

theorem set_index_err_col (m : Matrix) (row col row2 col2 : Nat) (v : ℤ)
    (e1 : row2 = if m.is_transpose then col else row)
    (e2 : col2 = if m.is_transpose then row else col)
    (h1 : ¬ m.rows < row2 + 1) (h2 : m.cols < col2 + 1) :
    m.set_index row col v = .error (.indexOutOfBoundsCol (m.cols - 1)) := by
  subst e1; subst e2
  simp only [Matrix.set_index]
  rw [if_neg h1, if_pos h2]

theorem offset_lt_sq (a b n : Nat) (ha : a < n) (hb : b < n) : a * n + b < n * n := by
  have h1 : (a + 1) * n ≤ n * n := Nat.mul_le_mul_right _ (by omega)
  have h2 : (a + 1) * n = a * n + n := by ring
  omega

theorem pred_mul_add (n k : Nat) (h : 1 ≤ n) : (n - 1) * k + k = n * k := by
  cases n with
  | zero => omega
  | succ m => simp [Nat.succ_sub_one, Nat.succ_mul]

theorem sum_map_const {α : Type} (l : List α) (k : Nat) :
    (l.map (fun _ => k)).sum = l.length * k := by
  induction l with
  | nil => simp
  | cons a l ih => simp [ih, Nat.succ_mul, Nat.add_comm]

theorem length_filter_ne_zero (n : Nat) :
    ((List.range n).filter (fun j => !(j == 0))).length = n - 1 := by
  induction n with
  | zero => rfl
  | succ n ih =>
    rw [List.range_succ, List.filter_append, List.length_append, ih]
    cases n with
    | zero => rfl
    | succ k => simp

theorem sum_sub_lengths (n c k : Nat) (h : c < n) :
    ((List.range n).map (fun i => if i = c then 0 else k)).sum = (n - 1) * k := by
  induction n with
  | zero => omega
  | succ n ih =>
    rw [List.range_succ, List.map_append, List.sum_append]
    by_cases hc : c = n
    · subst hc
      have hmap : ((List.range c).map (fun i => if i = c then 0 else k)) =
          (List.range c).map (fun _ => k) := by
        apply List.map_congr_left
        intro i hi
        have := List.mem_range.1 hi
        simp
        omega
      rw [hmap, sum_map_const]
      simp
    · have hc2 : c < n := by omega
      rw [ih hc2]
      have hone : ((List.map (fun i => if i = c then 0 else k) [n]).sum) = k := by
        simp [show ¬ n = c by omega]
      rw [hone, pred_mul_add n k (by omega)]
      have : n + 1 - 1 = n := by omega
      rw [this]

theorem square_colsL (m : Matrix) (h : m.cols = m.rows) : m.colsL = m.rows := by
  cases hT : m.is_transpose <;> simp [Matrix.colsL, hT, h]

theorem square_rowsL (m : Matrix) (h : m.cols = m.rows) : m.rowsL = m.rows := by
  cases hT : m.is_transpose <;> simp [Matrix.rowsL, hT, h]

theorem fields_square (m : Matrix) (h : m.colsL = m.rowsL) : m.cols = m.rows := by
  cases hT : m.is_transpose <;> simp [Matrix.colsL, Matrix.rowsL, hT] at h <;> omega

theorem check_square_not_square (m : Matrix) (h : m.colsL ≠ m.rowsL) :
    check_square m = .error .notSquare := by
  have : m.is_square = false := by
    simp [Matrix.is_square]
    omega
  simp [check_square, this]

theorem check_square_degenerate (m : Matrix) (h : m.colsL = m.rowsL)
    (h1 : m.rowsL = 1) : check_square m = .error .degenerateMatrix := by
  have : m.is_square = true := by simp [Matrix.is_square, h]
  simp [check_square, this, h1]

theorem check_square_ok (m : Matrix) (h : m.colsL = m.rowsL) (h1 : m.rowsL ≠ 1) :
    check_square m = .ok () := by
  have : m.is_square = true := by simp [Matrix.is_square, h]
  simp [check_square, this, h1]

/-- On a square matrix satisfying the shape invariant, `index(i, j)` with
`i, j < rows` succeeds and reads the swapped offset. -/
theorem index_ok_square_val (m : Matrix) (i j : Nat) (hsq : m.cols = m.rows)
    (hV : m.Valid) (hi : i < m.rows) (hj : j < m.rows) :
    m.index i j = .ok (m.matrix_flatt.getD
      ((if m.is_transpose then j else i) * m.rows +
        (if m.is_transpose then i else j)) 0) := by
  have hlen : m.matrix_flatt.length = m.rows * m.rows := by rw [hV, hsq]
  cases hT : m.is_transpose with
  | false =>
    rw [index_eval m i j i j (by simp [hT]) (by simp [hT]) (by omega) (by omega)
      (by have := offset_lt_sq i j m.rows hi hj; omega)]
    simp [hT]
  | true =>
    rw [index_eval m i j j i (by simp [hT]) (by simp [hT]) (by omega) (by omega)
      (by have := offset_lt_sq j i m.rows hj hi; omega)]
    simp [hT]

theorem length_filter_full (n i c0 : Nat) :
    (((List.range n).filter (fun j => !(i == c0 || j == 0)))).length =
      if i = c0 then 0 else n - 1 := by
  by_cases hic : i = c0
  · subst hic
    simp
  · have hbeq : (i == c0) = false := by simp [hic]
    simp only [hbeq, Bool.false_or]
    rw [if_neg hic]
    exact length_filter_ne_zero n

/-- On a square matrix satisfying the shape invariant, `finde_sub(0, c)`
succeeds and produces an untransposed square matrix one dimension smaller. -/
theorem finde_sub_ok (m : Matrix) (c0 : Nat) (hsq : m.cols = m.rows)
    (hV : m.Valid) (hc0 : c0 < m.rows) :
    ∃ fl, m.finde_sub 0 c0 = .ok ⟨m.rows - 1, m.rows - 1, fl, false⟩ ∧
      fl.length = (m.rows - 1) * (m.rows - 1) := by
  have hcolsL := square_colsL m hsq
  have hrowsL := square_rowsL m hsq
  set G : Nat → List ℤ := fun i =>
    ((List.range m.rowsL).filter (fun j => !(i == c0 || j == 0))).map
      (fun j => m.matrix_flatt.getD
        ((if m.is_transpose then j else i) * m.rows +
          (if m.is_transpose then i else j)) 0) with hG
  have hinner : ∀ i ∈ List.range m.colsL,
      (fun i => listMapE (fun j => m.index i j)
        ((List.range m.rowsL).filter (fun j => !(i == c0 || j == 0)))) i =
      .ok (G i) := by
    intro i hi
    apply listMapE_eq_map
    intro j hj
    have hj2 : j < m.rows := by
      have := List.mem_range.1 (List.mem_filter.1 hj).1
      omega
    have hi2 : i < m.rows := by
      have := List.mem_range.1 hi
      omega
    exact index_ok_square_val m i j hsq hV hi2 hj2
  have houter := listMapE_eq_map _ G (List.range m.colsL) hinner
  have hglen : ∀ i, (G i).length = if i = c0 then 0 else m.rows - 1 := by
    intro i
    rw [hG]
    simp only [List.length_map]
    rw [length_filter_full m.rowsL i c0, hrowsL]
  have hflen : ((List.range m.colsL).map G).flatten.length =
      (m.rows - 1) * (m.rows - 1) := by
    rw [List.length_flatten, List.map_map]
    have hcomp : (List.length ∘ G) = fun i => if i = c0 then 0 else m.rows - 1 :=
      funext hglen
    rw [hcomp, hcolsL]
    exact sum_sub_lengths m.rows c0 (m.rows - 1) hc0
  refine ⟨((List.range m.colsL).map G).flatten, ?_, hflen⟩
  have hstep : m.finde_sub 0 c0 =
      Matrix.new_flatt ((List.range m.colsL).map G).flatten
        (m.colsL - 1) (m.rowsL - 1) := by
    simp only [Matrix.finde_sub, houter]
    rfl
  rw [hstep, hcolsL, hrowsL]
  rw [hcolsL] at hflen
  unfold Matrix.new_flatt
  rw [if_neg (by omega)]

theorem detStep_check_err (r : Matrix → Except MatrixError ℤ) (m : Matrix)
    (e : MatrixError) (h : check_square m = .error e) :
    Matrix.detStep r m = .error e := by
  simp [Matrix.detStep, h]

/-- The `2 × 2` base case of the determinant succeeds on a valid square
matrix. -/
theorem detStep_base (r : Matrix → Except MatrixError ℤ) (m : Matrix)
    (hV : m.Valid) (hsq : m.cols = m.rows) (h2 : m.rows = 2) :
    ∃ q, Matrix.detStep r m = .ok q := by
  have hrowsL := square_rowsL m hsq
  have hck := check_square_ok m (by rw [square_colsL m hsq, hrowsL]) (by omega)
  have hrl2 : m.rowsL = 2 := by rw [hrowsL, h2]
  obtain ⟨a, ea⟩ : ∃ q, m.index 0 0 = .ok q :=
    ⟨_, index_ok_square_val m 0 0 hsq hV (by omega) (by omega)⟩
  obtain ⟨b, eb⟩ : ∃ q, m.index 1 1 = .ok q :=
    ⟨_, index_ok_square_val m 1 1 hsq hV (by omega) (by omega)⟩
  obtain ⟨c, ec⟩ : ∃ q, m.index 1 0 = .ok q :=
    ⟨_, index_ok_square_val m 1 0 hsq hV (by omega) (by omega)⟩
  obtain ⟨d, ed⟩ : ∃ q, m.index 0 1 = .ok q :=
    ⟨_, index_ok_square_val m 0 1 hsq hV (by omega) (by omega)⟩
  refine ⟨a * b - c * d, ?_⟩
  unfold Matrix.detStep
  simp only [hck, hrl2, if_true]
  simp only [ea, eb, ec, ed, bindOk]

/-- The fuel-indexed determinant succeeds on every valid square matrix of
dimension at least 2, provided the fuel covers the recursion depth. -/
theorem detAux_ok : ∀ (fuel : Nat) (m : Matrix), m.Valid → m.cols = m.rows →
    2 ≤ m.rows → m.rows ≤ fuel + 2 → ∃ q, Matrix.detAux fuel m = .ok q := by
  intro fuel
  induction fuel with
  | zero =>
    intro m hV hsq h2 hle
    have h2e : m.rows = 2 := by omega
    obtain ⟨q, hq⟩ := detStep_base (fun _ => .error .outOfFuel) m hV hsq h2e
    exact ⟨q, hq⟩
  | succ fuel ih =>
    intro m hV hsq h2 hle
    by_cases hb : m.rows = 2
    · obtain ⟨q, hq⟩ := detStep_base (Matrix.detAux fuel) m hV hsq hb
      exact ⟨q, hq⟩
    · have hcolsL := square_colsL m hsq
      have hrowsL := square_rowsL m hsq
      have hck := check_square_ok m (by rw [hcolsL, hrowsL]) (by omega)
      have hterm : ∀ c ∈ List.range m.colsL, ∃ b,
          (fun c => do
            let sub ← m.finde_sub 0 c
            let subDet ← Matrix.detAux fuel sub
            let a ← m.index 0 c
            Except.ok (subDet * (if c % 2 = 0 then (1 : ℤ) else -1) * a)) c =
            .ok b := by
        intro c hc
        have hc2 : c < m.rows := by
          have := List.mem_range.1 hc
          omega
        obtain ⟨fl, hfs, hfl⟩ := finde_sub_ok m c hsq hV hc2
        have hsubV : (⟨m.rows - 1, m.rows - 1, fl, false⟩ : Matrix).Valid := by
          simp [Matrix.Valid, hfl]
        obtain ⟨q, hq⟩ := ih ⟨m.rows - 1, m.rows - 1, fl, false⟩ hsubV rfl
          (by show 2 ≤ m.rows - 1; omega) (by show m.rows - 1 ≤ fuel + 2; omega)
        obtain ⟨av, hidx⟩ : ∃ q2, m.index 0 c = .ok q2 :=
          ⟨_, index_ok_square_val m 0 c hsq hV (by omega) hc2⟩
        refine ⟨q * (if c % 2 = 0 then (1 : ℤ) else -1) * av, ?_⟩
        simp only [hfs, hq, hidx, bindOk]
      obtain ⟨ts, hts, _, _⟩ := listMapE_ok_exists _ (List.range m.colsL) hterm
      refine ⟨ts.sum, ?_⟩
      show Matrix.detStep (Matrix.detAux fuel) m = .ok ts.sum
      have hrl : ¬ m.rowsL = 2 := by rw [hrowsL]; exact hb
      unfold Matrix.detStep
      simp only [hck]
      rw [if_neg hrl]
      simp only [hts, bindOk]

theorem det_check_err (m : Matrix) (e : MatrixError)
    (h : check_square m = .error e) : m.det = .error e := by
  unfold Matrix.det
  cases hf : m.rowsL with
  | zero => exact detStep_check_err _ m e h
  | succ n => exact detStep_check_err _ m e h

theorem check_vector_ok (m : Matrix) (v : Vec) (h : v.length = m.rowsL) :
    check_vector m v = .ok () := by
  simp [check_vector, h]

theorem check_vector_err (m : Matrix) (v : Vec) (h : v.length ≠ m.rowsL) :
    check_vector m v = .error (.shapeError m.rows v.length) := by
  simp [check_vector, h]

theorem check_matrix_ok (m o : Matrix) (hr : m.rowsL = o.rowsL)
    (hc : m.colsL = o.colsL) : check_matrix m o = .ok () := by
  simp [check_matrix, hr, hc]

theorem check_matrix_err (m o : Matrix)
    (h : ¬ (m.rowsL = o.rowsL ∧ m.colsL = o.colsL)) :
    ∃ e g2, check_matrix m o = .error (.shapeError e g2) := by
  unfold check_matrix
  by_cases h1 : m.rowsL = o.rowsL
  · have h2 : m.colsL ≠ o.colsL := by tauto
    rw [if_neg (not_not_intro h1), if_pos h2]
    exact ⟨_, _, rfl⟩
  · rw [if_pos h1]
    exact ⟨_, _, rfl⟩

theorem check_matrix_ok_elim (m o : Matrix) (h : check_matrix m o = .ok ()) :
    m.rowsL = o.rowsL ∧ m.colsL = o.colsL := by
  unfold check_matrix at h
  by_cases h1 : m.rowsL = o.rowsL
  · by_cases h2 : m.colsL = o.colsL
    · exact ⟨h1, h2⟩
    · rw [if_neg (not_not_intro h1), if_pos h2] at h
      cases h
  · rw [if_pos h1] at h
    cases h

theorem valid_new (vss : List (List ℤ)) (m : Matrix)
    (h : Matrix.new vss = .ok m) : m.Valid := by
  obtain ⟨hcols, hflatt, hT, hlen⟩ := new_ok_elim vss m h
  unfold Matrix.Valid
  rw [hflatt, flatten_length_uniform vss m.rows hlen, hcols]

theorem new_flatt_ok_elim (fl : Vec) (c r : Nat) (m : Matrix)
    (h : Matrix.new_flatt fl c r = .ok m) :
    m = ⟨c, r, fl, false⟩ ∧ c * r = fl.length := by
  unfold Matrix.new_flatt at h
  by_cases hc : c * r ≠ fl.length
  · rw [if_pos hc] at h
    cases h
  · rw [if_neg hc] at h
    cases h
    exact ⟨rfl, by omega⟩

theorem valid_new_flatt (fl : Vec) (c r : Nat) (m : Matrix)
    (h : Matrix.new_flatt fl c r = .ok m) : m.Valid := by
  obtain ⟨hm, hlen⟩ := new_flatt_ok_elim fl c r m h
  subst hm
  unfold Matrix.Valid
  show fl.length = c * r
  omega

theorem valid_new_zero (c r : Nat) : (Matrix.new_zero c r).Valid := by
  simp [Matrix.new_zero, Matrix.Valid]

theorem valid_transpose (m : Matrix) (h : m.Valid) : m.transpose.Valid := h

theorem valid_scalar_op (f : ℤ → ℤ) (m : Matrix) (h : m.Valid) :
    (m.scalar_op f).Valid := by
  simpa [Matrix.scalar_op, Matrix.Valid] using h

theorem set_index_vec_err (m : Matrix) (r c : Nat) (v : ℤ)
    (h1 : ¬ m.rows < (if m.is_transpose then c else r) + 1)
    (h2 : ¬ m.cols < (if m.is_transpose then r else c) + 1)
    (h3 : ¬ (if m.is_transpose then c else r) * m.rows +
      (if m.is_transpose then r else c) < m.matrix_flatt.length) :
    m.set_index r c v = .error .vectorIndexError := by
  simp only [Matrix.set_index]
  rw [if_neg h1, if_neg h2]
  unfold Vec.set_index
  rw [if_neg h3]

theorem set_index_shape (m : Matrix) (r c : Nat) (v : ℤ) (m2 : Matrix)
    (h : m.set_index r c v = .ok m2) :
    m2.cols = m.cols ∧ m2.rows = m.rows ∧ m2.is_transpose = m.is_transpose ∧
      m2.matrix_flatt.length = m.matrix_flatt.length := by
  by_cases h1 : m.rows < (if m.is_transpose then c else r) + 1
  · rw [set_index_err_row m r c _ v rfl h1] at h
    cases h
  · by_cases h2 : m.cols < (if m.is_transpose then r else c) + 1
    · rw [set_index_err_col m r c _ _ v rfl rfl h1 h2] at h
      cases h
    · by_cases h3 : (if m.is_transpose then c else r) * m.rows +
          (if m.is_transpose then r else c) < m.matrix_flatt.length
      · rw [set_index_eval m r c _ _ v rfl rfl h1 h2 h3] at h
        cases h
        exact ⟨rfl, rfl, rfl, by simp⟩
      · rw [set_index_vec_err m r c v h1 h2 h3] at h
        cases h

theorem vec_step_shape (f : ℤ → ℤ → ℤ) (vector : Vec) (r : Nat)
    (acc2 : Matrix) (c : Nat) (s2 : Matrix)
    (h : (do
        let a ← acc2.index r c
        let b ← Vec.index vector r
        acc2.set_index r c (f a b)) = .ok s2) :
    s2.cols = acc2.cols ∧ s2.rows = acc2.rows ∧ s2.is_transpose = acc2.is_transpose ∧
      s2.matrix_flatt.length = acc2.matrix_flatt.length := by
  cases ha : acc2.index r c with
  | error e =>
    rw [ha] at h
    cases h
  | ok a =>
    rw [ha] at h
    cases hb : Vec.index vector r with
    | error e =>
      rw [hb] at h
      cases h
    | ok b =>
      rw [hb] at h
      exact set_index_shape acc2 r c (f a b) s2 h

theorem vec_op_ok_shape (f : ℤ → ℤ → ℤ) (m : Matrix) (v : Vec) (m2 : Matrix)
    (h : m.vec_op f v = .ok m2) :
    m2.cols = m.cols ∧ m2.rows = m.rows ∧ m2.is_transpose = m.is_transpose ∧
      m2.matrix_flatt.length = m.matrix_flatt.length := by
  unfold Matrix.vec_op at h
  cases hcv : check_vector m v with
  | error e =>
    rw [hcv] at h
    cases h
  | ok u =>
    rw [hcv] at h
    refine listFoldE_shape _ ?_ _ m m2 h
    intro s a s2 hs
    refine listFoldE_shape _ ?_ _ s s2 hs
    intro s' c s2' hs'
    exact vec_step_shape f v a s' c s2' hs'

theorem valid_vec_op (f : ℤ → ℤ → ℤ) (m : Matrix) (v : Vec) (m2 : Matrix)
    (hV : m.Valid) (h : m.vec_op f v = .ok m2) : m2.Valid := by
  obtain ⟨h1, h2, _, h4⟩ := vec_op_ok_shape f m v m2 h
  unfold Matrix.Valid
  rw [h1, h2, h4, hV]

theorem valid_set_index (m : Matrix) (r c : Nat) (v : ℤ) (m2 : Matrix)
    (hV : m.Valid) (h : m.set_index r c v = .ok m2) : m2.Valid := by
  obtain ⟨h1, h2, _, h4⟩ := set_index_shape m r c v m2 h
  unfold Matrix.Valid
  rw [h1, h2, h4, hV]

/-- The logical flattening of a valid matrix succeeds and has the logical
size `cols() * rows()`. -/
theorem flattL_ok (m : Matrix) (hV : m.Valid) :
    ∃ l, m.flattL = .ok l ∧ l.length = m.colsL * m.rowsL := by
  cases hT : m.is_transpose with
  | false =>
    refine ⟨m.matrix_flatt, ?_, ?_⟩
    · simp [Matrix.flattL, hT]
    · rw [hV]
      simp [Matrix.colsL, Matrix.rowsL, hT]
  | true =>
    have hcol : ∀ i ∈ List.range m.rows,
        m.col i = .ok ((List.range m.cols).map
          (fun k => m.matrix_flatt.getD (k * m.rows + i) 0)) := by
      intro i hi
      have hi2 : i < m.rows := List.mem_range.1 hi
      have hgr : m.get_row i = .ok ((List.range m.cols).map
          (fun k => m.matrix_flatt.getD (k * m.rows + i) 0)) := by
        unfold Matrix.get_row
        rw [if_neg (by omega)]
        apply listMapE_eq_map
        intro k hk
        have hk2 : k < m.cols := List.mem_range.1 hk
        apply Vec.index_ok
        have hVl : m.matrix_flatt.length = m.cols * m.rows := hV
        have h1 : (k + 1) * m.rows ≤ m.cols * m.rows :=
          Nat.mul_le_mul_right _ (by omega)
        have h2 : (k + 1) * m.rows = k * m.rows + m.rows := by ring
        omega
      simp [Matrix.col, hT, hgr]
    have houter := listMapE_eq_map m.col
      (fun i => (List.range m.cols).map
        (fun k => m.matrix_flatt.getD (k * m.rows + i) 0))
      (List.range m.rows) hcol
    refine ⟨((List.range m.rows).map (fun i => (List.range m.cols).map
      (fun k => m.matrix_flatt.getD (k * m.rows + i) 0))).flatten, ?_, ?_⟩
    · simp only [Matrix.flattL, hT, if_true]
      simp only [houter, bindOk]
    · rw [List.length_flatten, List.map_map]
      have hcomp : (List.length ∘ fun i => (List.range m.cols).map
          (fun k => m.matrix_flatt.getD (k * m.rows + i) 0)) =
          fun _ : Nat => m.cols := funext (fun i => by simp)
      rw [hcomp, sum_map_const]
      simp [Matrix.colsL, Matrix.rowsL, hT]

theorem mat_op_ok (f : ℤ → ℤ → ℤ) (m o : Matrix) (hr : m.rowsL = o.rowsL)
    (hc : m.colsL = o.colsL) (hV : m.Valid) (hVo : o.Valid) :
    ∃ a b, m.flattL = .ok a ∧ o.flattL = .ok b ∧
      m.mat_op f o = .ok ⟨o.colsL, o.rowsL, List.zipWith f a b, false⟩ := by
  obtain ⟨a, ha, hal⟩ := flattL_ok m hV
  obtain ⟨b, hb, hbl⟩ := flattL_ok o hVo
  refine ⟨a, b, ha, hb, ?_⟩
  unfold Matrix.mat_op
  rw [check_matrix_ok m o hr hc]
  simp only [ha, hb, bindOk]

theorem mat_op_err (f : ℤ → ℤ → ℤ) (m o : Matrix)
    (h : ¬ (m.rowsL = o.rowsL ∧ m.colsL = o.colsL)) :
    ∃ e g2, m.mat_op f o = .error (.shapeError e g2) := by
  obtain ⟨e, g2, hcm⟩ := check_matrix_err m o h
  refine ⟨e, g2, ?_⟩
  unfold Matrix.mat_op
  rw [hcm]

theorem valid_mat_op (f : ℤ → ℤ → ℤ) (m o : Matrix) (m2 : Matrix)
    (hV : m.Valid) (hVo : o.Valid) (h : m.mat_op f o = .ok m2) : m2.Valid := by
  unfold Matrix.mat_op at h
  cases hcm : check_matrix m o with
  | error e =>
    rw [hcm] at h
    cases h
  | ok u =>
    cases u
    rw [hcm] at h
    obtain ⟨hdr, hdc⟩ := check_matrix_ok_elim m o hcm
    obtain ⟨a, ha, hal⟩ := flattL_ok m hV
    obtain ⟨b, hb, hbl⟩ := flattL_ok o hVo
    simp only [ha, hb, bindOk] at h
    cases h
    unfold Matrix.Valid
    show (List.zipWith f a b).length = o.colsL * o.rowsL
    rw [List.length_zipWith, hal, hbl, hdr, hdc]
    simp

theorem valid_new_outer (v1 v2 : Vec) (m : Matrix)
    (h : Matrix.new_outer v1 v2 = .ok m) : m.Valid :=
  valid_new _ m h

/-! ## Claim theorems -/

/-- C3 (code_bug evidence): on the spec's example `[[2,-3,1],[2,0,-1],[1,4,5]]`
the code's determinant returns `-46`, not the claimed `49`: the recursive case
pairs `index(0, c)` with the submatrix that deletes row `c` and column `0`,
which is not a cofactor expansion along row 0. -/
theorem C3_det_example :
    Matrix.new [[2, -3, 1], [2, 0, -1], [1, 4, 5]] =
      .ok ⟨3, 3, [2, -3, 1, 2, 0, -1, 1, 4, 5], false⟩ ∧
    Matrix.det ⟨3, 3, [2, -3, 1, 2, 0, -1, 1, 4, 5], false⟩ = .ok (-46) ∧
    (-46 : ℤ) ≠ 49 :=
  ⟨rfl, rfl, by decide⟩

/-- C10: matrix equality compares the logical `cols()`, `rows()` and
`matrix_flatt()` and nothing else; concretely, the transpose of
`new [[3,2,4],[4,5,6]]` compares equal to `new [[3,4],[2,5],[4,6]]` although
the transpose flags and the physical buffers differ. -/
theorem C10_matEq_logical :
    (∀ m other : Matrix, m.matEq other ↔
      (m.colsL = other.colsL ∧ m.rowsL = other.rowsL ∧ m.flattL = other.flattL)) ∧
    Except.map Matrix.transpose (Matrix.new [[3, 2, 4], [4, 5, 6]]) =
      .ok ⟨2, 3, [3, 2, 4, 4, 5, 6], true⟩ ∧
    Matrix.new [[3, 4], [2, 5], [4, 6]] = .ok ⟨3, 2, [3, 4, 2, 5, 4, 6], false⟩ ∧
    Matrix.matEq ⟨2, 3, [3, 2, 4, 4, 5, 6], true⟩ ⟨3, 2, [3, 4, 2, 5, 4, 6], false⟩ ∧
    (⟨2, 3, [3, 2, 4, 4, 5, 6], true⟩ : Matrix).is_transpose ≠
      (⟨3, 2, [3, 4, 2, 5, 4, 6], false⟩ : Matrix).is_transpose ∧
    (⟨2, 3, [3, 2, 4, 4, 5, 6], true⟩ : Matrix).matrix_flatt ≠
      (⟨3, 2, [3, 4, 2, 5, 4, 6], false⟩ : Matrix).matrix_flatt :=
  ⟨fun _ _ => Iff.rfl, rfl, rfl, ⟨rfl, rfl, rfl⟩, by decide, by decide⟩

/-- C1 counterexample: `new [[1,2,3],[4,5,6]]` is a valid non-transposed
matrix with logical `rows() = 3`, `cols() = 2`; at the in-bounds logical
position `(2, 1)` the offset `2 * 3 + 1 = 7` leaves the 6-element buffer, so
`index` does not return any backing element — it panics inside the external
`Vector` — and `set_index` likewise writes nothing. -/
theorem C1_counterexample :
    Matrix.new [[1, 2, 3], [4, 5, 6]] = .ok ⟨2, 3, [1, 2, 3, 4, 5, 6], false⟩ ∧
    (⟨2, 3, [1, 2, 3, 4, 5, 6], false⟩ : Matrix).rowsL = 3 ∧
    (⟨2, 3, [1, 2, 3, 4, 5, 6], false⟩ : Matrix).colsL = 2 ∧
    Matrix.index ⟨2, 3, [1, 2, 3, 4, 5, 6], false⟩ 2 1 =
      .error .vectorIndexError ∧
    Matrix.set_index ⟨2, 3, [1, 2, 3, 4, 5, 6], false⟩ 2 1 9 =
      .error .vectorIndexError :=
  ⟨rfl, rfl, rfl, rfl, rfl⟩

/-- C1 amended: on an untransposed matrix an in-bounds `index(row, col)`
addresses physical offset `row * rows + col` (with `rows` the physical row
count): it returns the backing element there — and `set_index(row, col, val)`
writes it — exactly when that offset lies inside the backing vector, and
both operations instead fail with the backing vector's own panic when the
offset leaves the buffer (which happens for some in-bounds positions of
non-square matrices); on a transposed matrix both operations first swap the
two coordinates. -/
theorem C1_index_offset (m : Matrix) (row col : Nat) (v : ℤ) :
    (m.is_transpose = false → row < m.rows → col < m.cols →
        row * m.rows + col < m.matrix_flatt.length →
      m.index row col = .ok (m.matrix_flatt.getD (row * m.rows + col) 0) ∧
      m.set_index row col v =
        .ok { m with matrix_flatt := m.matrix_flatt.set (row * m.rows + col) v }) ∧
    (m.is_transpose = true →
      m.index row col = Matrix.index { m with is_transpose := false } col row ∧
      m.set_index row col v =
        Except.map (fun r => { r with is_transpose := true })
          (Matrix.set_index { m with is_transpose := false } col row v)) ∧
    (m.is_transpose = false → row < m.rows → col < m.cols →
        m.matrix_flatt.length ≤ row * m.rows + col →
      m.index row col = .error .vectorIndexError ∧
      m.set_index row col v = .error .vectorIndexError) := by
  refine ⟨?_, ?_, ?_⟩
  · intro hT hr hc hoff
    constructor
    · exact index_eval m row col row col (by simp [hT]) (by simp [hT])
        (by omega) (by omega) hoff
    · exact set_index_eval m row col row col v (by simp [hT]) (by simp [hT])
        (by omega) (by omega) hoff
  swap
  · intro hT hr hc hoff
    constructor
    · exact index_vec_err m row col row col (by simp [hT]) (by simp [hT])
        (by omega) (by omega) hoff
    · exact set_index_vec_err m row col v (by simp [hT]; omega)
        (by simp [hT]; omega) (by simp [hT]; omega)
  · intro hT
    obtain ⟨c, r, fl, t⟩ := m
    change t = true at hT
    subst hT
    constructor
    · rfl
    · have lhs : Matrix.set_index ⟨c, r, fl, true⟩ row col v =
          (if r < col + 1 then .error (.indexOutOfBoundsRow (r - 1))
           else if c < row + 1 then .error (.indexOutOfBoundsCol (c - 1))
           else match Vec.set_index fl (col * r + row) v with
             | .ok u => .ok ⟨c, r, u, true⟩
             | .error e => .error e) := rfl
      have rhs : Matrix.set_index ⟨c, r, fl, false⟩ col row v =
          (if r < col + 1 then .error (.indexOutOfBoundsRow (r - 1))
           else if c < row + 1 then .error (.indexOutOfBoundsCol (c - 1))
           else match Vec.set_index fl (col * r + row) v with
             | .ok u => .ok ⟨c, r, u, false⟩
             | .error e => .error e) := rfl
      rw [lhs, rhs]
      split_ifs <;> try rfl
      cases hV : Vec.set_index fl (col * r + row) v <;> simp [Except.map, hV]

/-- C1 witness: concrete instances of both parts on `new [[3,2,4],[4,5,6]]`
and its transpose. -/
theorem C1_witness :
    Matrix.index ⟨2, 3, [3, 2, 4, 4, 5, 6], false⟩ 1 1 = .ok 5 ∧
    Matrix.set_index ⟨2, 3, [3, 2, 4, 4, 5, 6], false⟩ 1 1 9 =
      .ok ⟨2, 3, [3, 2, 4, 4, 9, 6], false⟩ ∧
    Matrix.index ⟨2, 3, [3, 2, 4, 4, 5, 6], true⟩ 2 1 =
      Matrix.index ⟨2, 3, [3, 2, 4, 4, 5, 6], false⟩ 1 2 ∧
    Matrix.index ⟨2, 3, [3, 2, 4, 4, 5, 6], false⟩ 2 1 =
      .error .vectorIndexError := by
  have h1 := (C1_index_offset ⟨2, 3, [3, 2, 4, 4, 5, 6], false⟩ 1 1 9).1
    rfl (by decide) (by decide) (by decide)
  have h2 := (C1_index_offset ⟨2, 3, [3, 2, 4, 4, 5, 6], true⟩ 2 1 9).2.1 rfl
  have h3 := (C1_index_offset ⟨2, 3, [3, 2, 4, 4, 5, 6], false⟩ 2 1 9).2.2
    rfl (by decide) (by decide) (by decide)
  exact ⟨h1.1, h1.2, h2.1, h3.1⟩

/-- C2 counterexample: for `new [[3,2,4],[4,5,6]]` (physical `cols = 2`,
`rows = 3`), `index(0, 1)` returns `2`, but the backing element at the
claimed column-major offset `col * rows + row = 1 * 3 + 0` is `4`. -/
theorem C2_counterexample :
    Matrix.new [[3, 2, 4], [4, 5, 6]] = .ok ⟨2, 3, [3, 2, 4, 4, 5, 6], false⟩ ∧
    Matrix.index ⟨2, 3, [3, 2, 4, 4, 5, 6], false⟩ 0 1 = .ok 2 ∧
    List.getD ([3, 2, 4, 4, 5, 6] : Vec) (1 * 3 + 0) 0 = 4 ∧ (2 : ℤ) ≠ 4 :=
  ⟨rfl, rfl, rfl, by decide⟩

/-- C2 amended: matrices built by `new` store the inner lists contiguously,
so the element at logical `(row, col)` — `row` indexing the inner lists —
sits at physical offset `row * rows + col` (not `col * rows + row`), and
`index(row, col)` returns exactly the backing element at that offset
whenever its own bound checks pass (`row ≤ rows` and `col ≤ cols`). -/
theorem C2_amended (vss : List (List ℤ)) (m : Matrix) (row col : Nat)
    (h : Matrix.new vss = .ok m) (hr : row < m.cols) (hc : col < m.rows) :
    m.matrix_flatt.getD (row * m.rows + col) 0 = (vss.getD row []).getD col 0 ∧
    (row ≤ m.rows → col ≤ m.cols →
      m.index row col = .ok ((vss.getD row []).getD col 0)) := by
  obtain ⟨hcols, hflatt, hT, hlen⟩ := new_ok_elim vss m h
  have hflen : m.matrix_flatt.length = vss.length * m.rows := by
    rw [hflatt]
    exact flatten_length_uniform vss m.rows hlen
  have hgd : m.matrix_flatt.getD (row * m.rows + col) 0 =
      (vss.getD row []).getD col 0 := by
    rw [hflatt]
    exact flatten_getD_uniform vss m.rows hlen row col (by omega) hc
  have hoff : row * m.rows + col < m.matrix_flatt.length := by
    have hle : (row + 1) * m.rows ≤ vss.length * m.rows :=
      Nat.mul_le_mul_right _ (by omega)
    have hexp : (row + 1) * m.rows = row * m.rows + m.rows := by ring
    omega
  refine ⟨hgd, fun hbr hbc => ?_⟩
  rw [index_eval m row col row col (by simp [hT]) (by simp [hT])
    (by omega) (by omega) hoff, hgd]

/-- C2 witness: `index(0, 1)` on `new [[3,2,4],[4,5,6]]` returns the second
entry of the first inner list. -/
theorem C2_witness :
    Matrix.index ⟨2, 3, [3, 2, 4, 4, 5, 6], false⟩ 0 1 =
      .ok ((([[3, 2, 4], [4, 5, 6]] : List (List ℤ)).getD 0 []).getD 1 0) :=
  (C2_amended [[3, 2, 4], [4, 5, 6]] ⟨2, 3, [3, 2, 4, 4, 5, 6], false⟩ 0 1
    rfl (by decide) (by decide)).2 (by decide) (by decide)

/-- C5 counterexample: on `new_flatt [1,2,3,4,5,6] 3 2` (physical `rows = 2`)
the coordinates `(2, 0)` are past the maximal valid row index `1`, yet
`index` succeeds (its check is `rows < row`) while `set_index` fails (its
check is `rows < row + 1`); hence no single bound condition governs both as
the claim states.  Moreover on `new_flatt [1,2,3,4,5,6] 2 3` the pair
`(2, 1)` is within the checked bounds, yet `index` fails — with the
backing-vector panic, not `IndexOutOfBounds` — because the computed offset
`2 * 3 + 1 = 7` leaves the 6-element buffer. -/
theorem C5_counterexample :
    Matrix.index ⟨3, 2, [1, 2, 3, 4, 5, 6], false⟩ 2 0 = .ok 5 ∧
    Matrix.set_index ⟨3, 2, [1, 2, 3, 4, 5, 6], false⟩ 2 0 99 =
      .error (.indexOutOfBoundsRow 1) ∧
    Matrix.index ⟨2, 3, [1, 2, 3, 4, 5, 6], false⟩ 2 1 = .error .vectorIndexError :=
  ⟨rfl, rfl, rfl⟩

/-- C5 amended: after the transpose swap, `index` fails with
`IndexOutOfBounds` (reporting the maximal valid index) exactly when the row
exceeds `rows` or the col exceeds `cols` — so `row == rows`/`col == cols`
slip through — while `set_index` fails already when the row reaches `rows`
or the col reaches `cols`; and on square matrices satisfying the shape
invariant, both operations succeed for every swapped pair below the physical
bounds. -/
theorem C5_amended (m : Matrix) (row col : Nat) (v : ℤ) :
    (m.rows < (if m.is_transpose then col else row) →
      m.index row col = .error (.indexOutOfBoundsRow (m.rows - 1))) ∧
    ((if m.is_transpose then col else row) ≤ m.rows →
      m.cols < (if m.is_transpose then row else col) →
      m.index row col = .error (.indexOutOfBoundsCol (m.cols - 1))) ∧
    (m.rows ≤ (if m.is_transpose then col else row) →
      m.set_index row col v = .error (.indexOutOfBoundsRow (m.rows - 1))) ∧
    ((if m.is_transpose then col else row) < m.rows →
      m.cols ≤ (if m.is_transpose then row else col) →
      m.set_index row col v = .error (.indexOutOfBoundsCol (m.cols - 1))) ∧
    (m.cols = m.rows → m.Valid →
      (if m.is_transpose then col else row) < m.rows →
      (if m.is_transpose then row else col) < m.cols →
      (∃ q, m.index row col = .ok q) ∧ ∃ m2, m.set_index row col v = .ok m2) := by
  refine ⟨?_, ?_, ?_, ?_, ?_⟩
  · intro h
    exact index_err_row m row col _ rfl h
  · intro h1 h2
    exact index_err_col m row col _ _ rfl rfl (by omega) h2
  · intro h
    exact set_index_err_row m row col _ v rfl (by omega)
  · intro h1 h2
    exact set_index_err_col m row col _ _ v rfl rfl (by omega) (by omega)
  · intro hsq hV hr hc
    have hoff : (if m.is_transpose then col else row) * m.rows +
        (if m.is_transpose then row else col) < m.matrix_flatt.length := by
      have hle : ((if m.is_transpose then col else row) + 1) * m.rows ≤
          m.rows * m.rows := Nat.mul_le_mul_right _ (by omega)
      have hexp : ((if m.is_transpose then col else row) + 1) * m.rows =
          (if m.is_transpose then col else row) * m.rows + m.rows := by ring
      have hlen : m.matrix_flatt.length = m.rows * m.rows := by
        rw [hV, hsq]
      omega
    exact ⟨⟨_, index_eval m row col _ _ rfl rfl (by omega) (by omega) hoff⟩,
      ⟨_, set_index_eval m row col _ _ v rfl rfl (by omega) (by omega) hoff⟩⟩

/-- C5 witness: the amended bounds behaviour at concrete inputs. -/
theorem C5_witness :
    Matrix.index ⟨3, 2, [1, 2, 3, 4, 5, 6], false⟩ 3 0 =
      .error (.indexOutOfBoundsRow 1) ∧
    Matrix.set_index ⟨3, 2, [1, 2, 3, 4, 5, 6], false⟩ 2 0 99 =
      .error (.indexOutOfBoundsRow 1) ∧
    (∃ q, Matrix.index ⟨2, 2, [1, 2, 3, 4], false⟩ 1 1 = .ok q) := by
  refine ⟨(C5_amended ⟨3, 2, [1, 2, 3, 4, 5, 6], false⟩ 3 0 0).1 (by decide),
    (C5_amended ⟨3, 2, [1, 2, 3, 4, 5, 6], false⟩ 2 0 99).2.2.1 (by decide),
    ((C5_amended ⟨2, 2, [1, 2, 3, 4], false⟩ 1 1 0).2.2.2.2 rfl rfl
      (by decide) (by decide)).1⟩

/-- C7: `det()` fails with `NotSquare` whenever `cols() ≠ rows()`, fails with
`DegenerateMatrix` on a square matrix of dimension 1, and succeeds on every
valid square matrix of dimension at least 2. -/
theorem C7_det_checks :
    (∀ m : Matrix, m.colsL ≠ m.rowsL → m.det = .error .notSquare) ∧
    (∀ m : Matrix, m.colsL = m.rowsL → m.rowsL = 1 →
      m.det = .error .degenerateMatrix) ∧
    (∀ m : Matrix, m.Valid → m.colsL = m.rowsL → 2 ≤ m.rowsL →
      ∃ q, m.det = .ok q) := by
  refine ⟨?_, ?_, ?_⟩
  · intro m h
    exact det_check_err m _ (check_square_not_square m h)
  · intro m h h1
    exact det_check_err m _ (check_square_degenerate m h h1)
  · intro m hV hsq h2
    have hf := fields_square m hsq
    have hrowsL := square_rowsL m hf
    have hmain := detAux_ok m.rowsL m hV hf (by omega) (by omega)
    exact hmain

/-- C7 witness: the three behaviours at concrete matrices. -/
theorem C7_witness :
    Matrix.det ⟨3, 4, List.replicate 12 0, false⟩ = .error .notSquare ∧
    Matrix.det ⟨1, 1, [7], false⟩ = .error .degenerateMatrix ∧
    ∃ q, Matrix.det ⟨2, 2, [1, 2, 3, 4], false⟩ = .ok q :=
  ⟨C7_det_checks.1 _ (by decide), C7_det_checks.2.1 _ rfl rfl,
    C7_det_checks.2.2 _ rfl rfl (by decide)⟩

/-- C9: the shape invariant `matrix_flatt.length = cols * rows` holds for
every matrix built by the constructors and is preserved by every operation;
consequently the logical flattening `matrix_flatt()` of a valid matrix has
length `cols() * rows()`. -/
theorem C9_shape_invariant :
    (∀ vss m, Matrix.new vss = .ok m → m.Valid) ∧
    (∀ fl c r m, Matrix.new_flatt fl c r = .ok m → m.Valid) ∧
    (∀ c r, (Matrix.new_zero c r).Valid) ∧
    (∀ v1 v2 m, Matrix.new_outer v1 v2 = .ok m → m.Valid) ∧
    (∀ m : Matrix, m.Valid → m.transpose.Valid) ∧
    (∀ f (m : Matrix), m.Valid → (m.scalar_op f).Valid) ∧
    (∀ (m : Matrix) f, m.Valid → (m.apply_func_val f).Valid) ∧
    (∀ f (m : Matrix) v m2, m.Valid → m.vec_op f v = .ok m2 → m2.Valid) ∧
    (∀ f (m o : Matrix) m2, m.Valid → o.Valid → m.mat_op f o = .ok m2 →
      m2.Valid) ∧
    (∀ (m : Matrix) r c v m2, m.Valid → m.set_index r c v = .ok m2 →
      m2.Valid) ∧
    (∀ m : Matrix, m.Valid → ∃ l, m.flattL = .ok l ∧
      l.length = m.colsL * m.rowsL) :=
  ⟨valid_new, valid_new_flatt, valid_new_zero, valid_new_outer,
    valid_transpose, valid_scalar_op,
    fun m f h => valid_scalar_op f m h,
    valid_vec_op,
    fun f m o m2 hV hVo h => valid_mat_op f m o m2 hV hVo h,
    fun m r c v m2 hV h => valid_set_index m r c v m2 hV h,
    flattL_ok⟩

/-- C9 witness: the invariant at a concrete construction and after a
transpose. -/
theorem C9_witness :
    (Matrix.new_zero 2 3).Valid ∧ ((Matrix.new_zero 2 3).transpose).Valid :=
  ⟨C9_shape_invariant.2.2.1 2 3,
    C9_shape_invariant.2.2.2.2.1 _ (C9_shape_invariant.2.2.1 2 3)⟩

/-- C6: the four matrix operators share `mat_op`; with matching logical
shapes the result's storage is the elementwise `zipWith` of the two logical
flattenings, the transpose flag is cleared and the operand's logical shape is
adopted; with mismatching shapes they fail with `ShapeError` (and, the
embedding being functional, the receiver is untouched). -/
theorem C6_mat_ops (f : ℤ → ℤ → ℤ) (m o : Matrix) :
    (Matrix.add_mat = Matrix.mat_op (· + ·) ∧
     Matrix.sub_mat = Matrix.mat_op (· - ·) ∧
     Matrix.mul_mat = Matrix.mat_op (· * ·) ∧
     Matrix.div_mat = Matrix.mat_op (· / ·)) ∧
    (m.rowsL = o.rowsL → m.colsL = o.colsL → m.Valid → o.Valid →
      ∃ a b, m.flattL = .ok a ∧ o.flattL = .ok b ∧
        m.mat_op f o = .ok ⟨o.colsL, o.rowsL, List.zipWith f a b, false⟩) ∧
    (¬ (m.rowsL = o.rowsL ∧ m.colsL = o.colsL) →
      ∃ e g2, m.mat_op f o = .error (.shapeError e g2)) :=
  ⟨⟨rfl, rfl, rfl, rfl⟩,
    fun hr hc hV hVo => mat_op_ok f m o hr hc hV hVo,
    fun h => mat_op_err f m o h⟩

/-- C6 witness: a concrete elementwise addition adopting the operand's shape,
and a concrete shape mismatch. -/
theorem C6_witness :
    Matrix.mat_op (· + ·) ⟨2, 2, [1, 2, 3, 4], false⟩ ⟨2, 2, [5, 6, 7, 8], false⟩ =
      .ok ⟨2, 2, [6, 8, 10, 12], false⟩ ∧
    ∃ e g2, Matrix.mat_op (· + ·) ⟨2, 2, [1, 2, 3, 4], false⟩
      ⟨3, 2, [5, 6, 7, 8, 9, 10], false⟩ = .error (.shapeError e g2) := by
  constructor
  · obtain ⟨a, b, ha, hb, h⟩ :=
      (C6_mat_ops (· + ·) ⟨2, 2, [1, 2, 3, 4], false⟩
        ⟨2, 2, [5, 6, 7, 8], false⟩).2.1 rfl rfl rfl rfl
    have ha2 : a = ([1, 2, 3, 4] : Vec) := by
      injection ha.symm
    have hb2 : b = ([5, 6, 7, 8] : Vec) := by
      injection hb.symm
    subst ha2
    subst hb2
    exact h
  · exact (C6_mat_ops (· + ·) ⟨2, 2, [1, 2, 3, 4], false⟩
      ⟨3, 2, [5, 6, 7, 8, 9, 10], false⟩).2.2 (by decide)

theorem bindErr {α β : Type} (e : MatrixError) (f : α → Except MatrixError β) :
    ((Except.error e : Except MatrixError α) >>= f) = .error e := rfl

theorem listFoldE_append {σ α : Type} (step : σ → α → Except MatrixError σ) :
    ∀ (l1 l2 : List α) (s : σ), listFoldE step s (l1 ++ l2) =
      (listFoldE step s l1) >>= fun s2 => listFoldE step s2 l2 := by
  intro l1
  induction l1 with
  | nil => intro l2 s; rfl
  | cons a l ih =>
    intro l2 s
    cases hs : step s a with
    | error e => simp only [List.cons_append, listFoldE, hs, bindErr]
    | ok s2 =>
      simp only [List.cons_append, listFoldE, hs, bindOk]
      exact ih l2 s2

theorem mul_add_inj (n r c r2 c2 : Nat) (hc : c < n) (hc2 : c2 < n)
    (h : r * n + c = r2 * n + c2) : r = r2 ∧ c = c2 := by
  rcases Nat.lt_trichotomy r r2 with hlt | heq | hgt
  · exfalso
    have hle : (r + 1) * n ≤ r2 * n := Nat.mul_le_mul_right _ (by omega)
    have hexp : (r + 1) * n = r * n + n := by ring
    omega
  · subst heq
    omega
  · exfalso
    have hle : (r2 + 1) * n ≤ r * n := Nat.mul_le_mul_right _ (by omega)
    have hexp : (r2 + 1) * n = r2 * n + n := by ring
    omega

theorem sigmaOff_inj (t : Bool) (n r c r2 c2 : Nat) (hr : r < n) (hc : c < n)
    (hr2 : r2 < n) (hc2 : c2 < n)
    (h : sigmaOff t n r c = sigmaOff t n r2 c2) : r = r2 ∧ c = c2 := by
  cases t with
  | false =>
    simp only [sigmaOff, if_neg (by simp : ¬ false = true)] at h
    exact mul_add_inj n r c r2 c2 hc hc2 h
  | true =>
    simp only [sigmaOff, if_pos rfl] at h
    obtain ⟨h1, h2⟩ := mul_add_inj n c r c2 r2 hr hr2 h
    exact ⟨h2, h1⟩

theorem sigmaOff_lt (t : Bool) (n r c : Nat) (hr : r < n) (hc : c < n) :
    sigmaOff t n r c < n * n := by
  cases t with
  | false => exact offset_lt_sq r c n hr hc
  | true => exact offset_lt_sq c r n hc hr

theorem index_square_sigma (n : Nat) (t : Bool) (fl : Vec) (r c : Nat)
    (hr : r < n) (hc : c < n) (hlen : fl.length = n * n) :
    (⟨n, n, fl, t⟩ : Matrix).index r c = .ok (fl.getD (sigmaOff t n r c) 0) := by
  cases t with
  | false =>
    rw [index_eval ⟨n, n, fl, false⟩ r c r c rfl rfl
      (by show ¬ n < r; omega) (by show ¬ n < c; omega)
      (by show r * n + c < fl.length; rw [hlen]; exact offset_lt_sq r c n hr hc)]
    rfl
  | true =>
    rw [index_eval ⟨n, n, fl, true⟩ r c c r rfl rfl
      (by show ¬ n < c; omega) (by show ¬ n < r; omega)
      (by show c * n + r < fl.length; rw [hlen]; exact offset_lt_sq c r n hc hr)]
    rfl

theorem set_index_square_sigma (n : Nat) (t : Bool) (fl : Vec) (r c : Nat)
    (val : ℤ) (hr : r < n) (hc : c < n) (hlen : fl.length = n * n) :
    (⟨n, n, fl, t⟩ : Matrix).set_index r c val =
      .ok ⟨n, n, fl.set (sigmaOff t n r c) val, t⟩ := by
  cases t with
  | false =>
    rw [set_index_eval ⟨n, n, fl, false⟩ r c r c val rfl rfl
      (by show ¬ n < r + 1; omega) (by show ¬ n < c + 1; omega)
      (by show r * n + c < fl.length; rw [hlen]; exact offset_lt_sq r c n hr hc)]
    rfl
  | true =>
    rw [set_index_eval ⟨n, n, fl, true⟩ r c c r val rfl rfl
      (by show ¬ n < c + 1; omega) (by show ¬ n < r + 1; omega)
      (by show c * n + r < fl.length; rw [hlen]; exact offset_lt_sq c r n hc hr)]
    rfl

theorem vec_body_eval (f : ℤ → ℤ → ℤ) (v : Vec) (n : Nat) (t : Bool)
    (fl : Vec) (r c : Nat) (hr : r < n) (hc : c < n)
    (hlen : fl.length = n * n) (hv : v.length = n) :
    (do
      let a ← (⟨n, n, fl, t⟩ : Matrix).index r c
      let b ← Vec.index v r
      (⟨n, n, fl, t⟩ : Matrix).set_index r c (f a b)) =
    .ok ⟨n, n, fl.set (sigmaOff t n r c)
      (f (fl.getD (sigmaOff t n r c) 0) (v.getD r 0)), t⟩ := by
  rw [index_square_sigma n t fl r c hr hc hlen]
  simp only [bindOk]
  rw [Vec.index_ok v r (by omega)]
  simp only [bindOk]
  exact set_index_square_sigma n t fl r c _ hr hc hlen

/-- Characterization of the inner `col` loop of the vector operations on a
square matrix: the first `k` columns of row `r` are combined in place, with
every position written at most once. -/
theorem inner_loop_char (f : ℤ → ℤ → ℤ) (v : Vec) (n : Nat) (t : Bool)
    (r : Nat) (hr : r < n) (hv : v.length = n) :
    ∀ k : Nat, k ≤ n → ∀ fl : Vec, fl.length = n * n →
      ∃ fl2, listFoldE (fun acc2 c => do
          let a ← acc2.index r c
          let b ← Vec.index v r
          acc2.set_index r c (f a b)) (⟨n, n, fl, t⟩ : Matrix) (List.range k) =
        .ok ⟨n, n, fl2, t⟩ ∧ fl2.length = n * n ∧
        (∀ c, c < k → fl2.getD (sigmaOff t n r c) 0 =
          f (fl.getD (sigmaOff t n r c) 0) (v.getD r 0)) ∧
        ∀ p, (∀ c, c < k → p ≠ sigmaOff t n r c) → fl2.getD p 0 = fl.getD p 0 := by
  intro k
  induction k with
  | zero =>
    intro hk fl hlen
    refine ⟨fl, rfl, hlen, ?_, fun p _ => rfl⟩
    intro c hc
    exact absurd hc (Nat.not_lt_zero c)
  | succ k ih =>
    intro hk fl hlen
    obtain ⟨fl2, hfold, hlen2, hdone, hun⟩ := ih (by omega) fl hlen
    have hsame : fl2.getD (sigmaOff t n r k) 0 = fl.getD (sigmaOff t n r k) 0 := by
      refine hun (sigmaOff t n r k) ?_
      intro c hc heq
      have := (sigmaOff_inj t n r k r c hr (by omega) hr (by omega) heq).2
      omega
    refine ⟨fl2.set (sigmaOff t n r k)
      (f (fl.getD (sigmaOff t n r k) 0) (v.getD r 0)), ?_, ?_, ?_, ?_⟩
    · rw [List.range_succ, listFoldE_append, hfold, bindOk]
      have hbody := vec_body_eval f v n t fl2 r k hr (by omega) hlen2 hv
      simp only [listFoldE, hbody, bindOk, hsame]
    · simp [hlen2]
    · intro c hc
      by_cases hck : c = k
      · subst hck
        rw [getD_set_self _ _ _ (by rw [hlen2]; exact sigmaOff_lt t n r c hr (by omega))]
      · have hne : sigmaOff t n r k ≠ sigmaOff t n r c := by
          intro heq
          exact hck ((sigmaOff_inj t n r k r c hr (by omega) hr (by omega) heq).2).symm
        rw [getD_set_ne _ _ _ _ hne]
        exact hdone c (by omega)
    · intro p hp
      have hne : sigmaOff t n r k ≠ p := fun heq => (hp k (by omega)) heq.symm
      rw [getD_set_ne _ _ _ _ hne]
      exact hun p (fun c hc => hp c (by omega))

/-- Characterization of the full double loop of the vector operations on a
square matrix: rows `0..k` are combined over columns `0..n-1`, everything
else untouched. -/
theorem outer_loop_char (f : ℤ → ℤ → ℤ) (v : Vec) (n : Nat) (t : Bool)
    (hv : v.length = n) :
    ∀ k : Nat, k ≤ n → ∀ fl : Vec, fl.length = n * n →
      ∃ fl2, listFoldE (fun acc r2 =>
          listFoldE (fun acc2 c => do
              let a ← acc2.index r2 c
              let b ← Vec.index v r2
              acc2.set_index r2 c (f a b)) acc (List.range (acc.colsL - 1)))
          (⟨n, n, fl, t⟩ : Matrix) (List.range k) =
        .ok ⟨n, n, fl2, t⟩ ∧ fl2.length = n * n ∧
        (∀ r c, r < k → c < n - 1 → fl2.getD (sigmaOff t n r c) 0 =
          f (fl.getD (sigmaOff t n r c) 0) (v.getD r 0)) ∧
        ∀ p, (∀ r c, r < k → c < n - 1 → p ≠ sigmaOff t n r c) →
          fl2.getD p 0 = fl.getD p 0 := by
  intro k
  induction k with
  | zero =>
    intro hk fl hlen
    refine ⟨fl, rfl, hlen, ?_, fun p _ => rfl⟩
    intro r c hr _
    exact absurd hr (Nat.not_lt_zero r)
  | succ k ih =>
    intro hk fl hlen
    obtain ⟨fl2, hfold, hlen2, hdone, hun⟩ := ih (by omega) fl hlen
    have hcolsL : (⟨n, n, fl2, t⟩ : Matrix).colsL = n := by cases t <;> rfl
    obtain ⟨fl3, hinner, hlen3, hdone3, hun3⟩ :=
      inner_loop_char f v n t k (by omega) hv (n - 1) (by omega) fl2 hlen2
    refine ⟨fl3, ?_, hlen3, ?_, ?_⟩
    · rw [List.range_succ, listFoldE_append, hfold, bindOk]
      simp only [listFoldE, hcolsL, hinner, bindOk]
    · intro r c hr hc
      by_cases hrk : r = k
      · subst hrk
        rw [hdone3 c hc]
        have : fl2.getD (sigmaOff t n r c) 0 = fl.getD (sigmaOff t n r c) 0 := by
          refine hun (sigmaOff t n r c) ?_
          intro r2 c2 hr2 hc2 heq
          have := (sigmaOff_inj t n r c r2 c2 (by omega) (by omega) (by omega)
            (by omega) heq).1
          omega
        rw [this]
      · have hrk2 : r < k := by omega
        have : fl3.getD (sigmaOff t n r c) 0 = fl2.getD (sigmaOff t n r c) 0 := by
          refine hun3 (sigmaOff t n r c) ?_
          intro c2 hc2 heq
          have := (sigmaOff_inj t n r c k c2 (by omega) (by omega) (by omega)
            (by omega) heq).1
          omega
        rw [this]
        exact hdone r c hrk2 hc
    · intro p hp
      have h3 : fl3.getD p 0 = fl2.getD p 0 := by
        refine hun3 p ?_
        intro c hc
        exact hp k c (by omega) hc
      rw [h3]
      exact hun p (fun r c hr hc => hp r c (by omega) hc)

theorem f32Bytes_length (q : ℤ) (b : List Nat) (h : f32Bytes? q = some b) :
    b.length = 4 := by
  unfold f32Bytes? at h
  cases hw : f32Word? q with
  | none =>
    rw [hw] at h
    cases h
  | some w =>
    rw [hw] at h
    have h2 : some (bytesOfWord w) = some b := h
    cases h2
    rfl

theorem listMapO_elim {α β : Type} (f : α → Option β) :
    ∀ (l : List α) (bs : List β), listMapO f l = some bs →
      bs.length = l.length ∧ ∀ b ∈ bs, ∃ a ∈ l, f a = some b := by
  intro l
  induction l with
  | nil =>
    intro bs h
    have h2 : some ([] : List β) = some bs := h
    cases h2
    exact ⟨rfl, by simp⟩
  | cons a l ih =>
    intro bs h
    unfold listMapO at h
    cases hfa : f a with
    | none =>
      rw [hfa] at h
      cases h
    | some b =>
      rw [hfa] at h
      cases hrest : listMapO f l with
      | none =>
        rw [hrest] at h
        cases h
      | some bs2 =>
        rw [hrest] at h
        have h2 : some (b :: bs2) = some bs := h
        cases h2
        obtain ⟨hlen, hmem⟩ := ih bs2 hrest
        refine ⟨by simp [hlen], ?_⟩
        intro x hx
        rcases List.mem_cons.1 hx with hx | hx
        · exact ⟨a, by simp, hx ▸ hfa⟩
        · obtain ⟨a2, ha2, hfa2⟩ := hmem x hx
          exact ⟨a2, by simp [ha2], hfa2⟩

/-- C8: `bytes()` is `rows()` as `f32` bytes, then `cols()`, then the raw
`f32` bytes of the logical flattening with the 4-byte length prefix skipped,
for a total of `(2 + rows() * cols()) * 4` bytes; and on `[[2,3],[7,4]]` it
equals the literal byte sequence of the spec. -/
theorem C8_bytes (m : Matrix) (fl : Vec) (rb cb pb : List Nat)
    (es : List (List Nat)) :
    (m.flattL = .ok fl → f32Bytes? (m.rowsL : ℤ) = some rb →
     f32Bytes? (m.colsL : ℤ) = some cb → f32Bytes? (fl.length : ℤ) = some pb →
     listMapO f32Bytes? fl = some es →
      m.bytes = some (rb ++ cb ++ es.flatten) ∧
      (m.Valid → (rb ++ cb ++ es.flatten).length =
        (2 + m.rowsL * m.colsL) * 4)) ∧
    (Matrix.new [[2, 3], [7, 4]] = .ok ⟨2, 2, [2, 3, 7, 4], false⟩ ∧
     Matrix.bytes ⟨2, 2, [2, 3, 7, 4], false⟩ =
       some [0, 0, 0, 64, 0, 0, 0, 64, 0, 0, 0, 64, 0, 0, 64, 64,
         0, 0, 224, 64, 0, 0, 128, 64]) := by
  constructor
  · intro hfl hrb hcb hpb hes
    constructor
    · have hvb : Vec.bytes fl = some (pb ++ es.flatten) := by
        unfold Vec.bytes
        simp only [hpb, hes, obindSome]
      have hdrop : (pb ++ es.flatten).drop 4 = es.flatten := by
        have h4 := f32Bytes_length _ _ hpb
        rw [← h4]
        simp
      unfold Matrix.bytes
      simp only [hfl, hrb, hcb, hvb, obindSome, hdrop]
    · intro hV
      obtain ⟨l, hl, hlen⟩ := flattL_ok m hV
      have hfl2 : fl = l := by
        rw [hfl] at hl
        injection hl
      obtain ⟨hesl, hesmem⟩ := listMapO_elim f32Bytes? fl es hes
      have h4 : ∀ b ∈ es, b.length = 4 := fun b hb => by
        obtain ⟨a, _, hfa⟩ := hesmem b hb
        exact f32Bytes_length a b hfa
      have hflat : es.flatten.length = es.length * 4 :=
        flatten_length_uniform es 4 h4
      have hrb4 := f32Bytes_length _ _ hrb
      have hcb4 := f32Bytes_length _ _ hcb
      subst hfl2
      simp only [List.length_append, hrb4, hcb4, hflat, hesl, hlen]
      ring
  · exact ⟨rfl, rfl⟩

/-- C8 witness: the universal layout statement instantiated at the spec's
`[[2,3],[7,4]]` example. -/
theorem C8_witness :
    Matrix.bytes ⟨2, 2, [2, 3, 7, 4], false⟩ =
      some ([0, 0, 0, 64] ++ [0, 0, 0, 64] ++
        ([[0, 0, 0, 64], [0, 0, 64, 64], [0, 0, 224, 64],
          [0, 0, 128, 64]] : List (List Nat)).flatten) ∧
    (([0, 0, 0, 64] ++ [0, 0, 0, 64] ++
        ([[0, 0, 0, 64], [0, 0, 64, 64], [0, 0, 224, 64],
          [0, 0, 128, 64]] : List (List Nat)).flatten).length =
      (2 + (⟨2, 2, [2, 3, 7, 4], false⟩ : Matrix).rowsL *
        (⟨2, 2, [2, 3, 7, 4], false⟩ : Matrix).colsL) * 4) := by
  have h := (C8_bytes ⟨2, 2, [2, 3, 7, 4], false⟩ [2, 3, 7, 4]
    [0, 0, 0, 64] [0, 0, 0, 64] [0, 0, 128, 64]
    [[0, 0, 0, 64], [0, 0, 64, 64], [0, 0, 224, 64], [0, 0, 128, 64]]).1
    rfl rfl rfl rfl rfl
  exact ⟨h.1, h.2 rfl⟩

theorem vec_op_shape_err (f : ℤ → ℤ → ℤ) (m : Matrix) (v : Vec)
    (h : v.length ≠ m.rowsL) :
    m.vec_op f v = .error (.shapeError m.rows v.length) := by
  unfold Matrix.vec_op
  rw [check_vector_err m v h]

/-- C4 counterexample: on `new_flatt [0..14] 5 3` (physical `cols = 5`,
`rows = 3`) with vector `[1, 10, 100]`, the loop offsets
`row * rows + col` collide: iteration `(0, 3)` and iteration `(1, 0)` both
address offset 3, so the element read back at `(1, 0)` ends at
`3 + 1 + 10 = 14`, not at the claimed `3 + v[1] = 13`. -/
theorem C4_counterexample :
    Matrix.add_vec ⟨5, 3, [0, 1, 2, 3, 4, 5, 6, 7, 8, 9, 10, 11, 12, 13, 14],
        false⟩ [1, 10, 100] =
      .ok ⟨5, 3, [1, 2, 3, 14, 14, 15, 16, 7, 8, 9, 10, 11, 12, 13, 14], false⟩ ∧
    Matrix.index ⟨5, 3, [0, 1, 2, 3, 4, 5, 6, 7, 8, 9, 10, 11, 12, 13, 14],
        false⟩ 1 0 = .ok 3 ∧
    Matrix.index ⟨5, 3, [1, 2, 3, 14, 14, 15, 16, 7, 8, 9, 10, 11, 12, 13, 14],
        false⟩ 1 0 = .ok 14 ∧
    (14 : ℤ) ≠ 3 + 10 :=
  ⟨rfl, rfl, rfl, by decide⟩

/-- C4 amended: the four vector operations share `vec_op`; a length mismatch
with `rows()` is a `ShapeError`; and on square matrices (where the offset
formula neither aliases nor overflows) the operation combines `v[row]` with
the element at `(row, col)` exactly for `row, col` in `[0, n-1) × [0, n-1)`,
leaving the last logical row and column unchanged.  On non-square shapes the
offsets `row * rows + col` can collide or leave the buffer (see the
counterexample), so the claimed per-element description fails there. -/
theorem C4_vec_ops (f : ℤ → ℤ → ℤ) (m : Matrix) (v : Vec) :
    (Matrix.add_vec = Matrix.vec_op (· + ·) ∧
     Matrix.sub_vec = Matrix.vec_op (· - ·) ∧
     Matrix.mul_vec = Matrix.vec_op (· * ·) ∧
     Matrix.div_vec = Matrix.vec_op (· / ·)) ∧
    (v.length ≠ m.rowsL → m.vec_op f v = .error (.shapeError m.rows v.length)) ∧
    (∀ n, m.cols = n → m.rows = n → 1 ≤ n → m.Valid → v.length = n →
      ∃ m2, m.vec_op f v = .ok m2 ∧
        ∀ row col, row < n → col < n →
          ∃ a, m.index row col = .ok a ∧
            m2.index row col =
              .ok (if row < n - 1 ∧ col < n - 1 then f a (v.getD row 0) else a)) := by
  refine ⟨⟨rfl, rfl, rfl, rfl⟩, fun h => vec_op_shape_err f m v h, ?_⟩
  intro n hc hr h1 hV hv
  obtain ⟨mc, mr, fl, t⟩ := m
  have hc2 : n = mc := hc.symm
  have hr2 : n = mr := hr.symm
  subst hc2
  subst hr2
  have hrowsL : (⟨n, n, fl, t⟩ : Matrix).rowsL = n := by cases t <;> rfl
  have hVl : fl.length = n * n := hV
  obtain ⟨fl2, hfold, hlen2, hdone, hun⟩ :=
    outer_loop_char f v n t hv (n - 1) (by omega) fl hVl
  refine ⟨⟨n, n, fl2, t⟩, ?_, ?_⟩
  · unfold Matrix.vec_op
    rw [check_vector_ok _ v (by rw [hrowsL]; exact hv)]
    rw [hrowsL]
    exact hfold
  · intro row col hrow hcol
    refine ⟨fl.getD (sigmaOff t n row col) 0,
      index_square_sigma n t fl row col hrow hcol hVl, ?_⟩
    rw [index_square_sigma n t fl2 row col hrow hcol hlen2]
    by_cases hin : row < n - 1 ∧ col < n - 1
    · rw [if_pos hin, hdone row col hin.1 hin.2]
    · rw [if_neg hin]
      have huntouched : fl2.getD (sigmaOff t n row col) 0 =
          fl.getD (sigmaOff t n row col) 0 := by
        refine hun _ ?_
        intro r2 c2 hr2 hc2 heq
        obtain ⟨he1, he2⟩ := sigmaOff_inj t n row col r2 c2 hrow hcol
          (by omega) (by omega) heq
        exact hin ⟨by omega, by omega⟩
      rw [huntouched]

/-- C4 witness: the amended description at a concrete `2 × 2` matrix — the
`(0,0)` element is combined, the last row and column stay unchanged. -/
theorem C4_witness :
    ∃ m2, Matrix.vec_op (· + ·) ⟨2, 2, [1, 2, 3, 4], false⟩ [10, 20] = .ok m2 ∧
      (∃ a, Matrix.index ⟨2, 2, [1, 2, 3, 4], false⟩ 0 0 = .ok a ∧
        m2.index 0 0 = .ok (if 0 < 2 - 1 ∧ 0 < 2 - 1 then a + [10, 20].getD 0 0 else a)) ∧
      (∃ a, Matrix.index ⟨2, 2, [1, 2, 3, 4], false⟩ 1 1 = .ok a ∧
        m2.index 1 1 = .ok (if 1 < 2 - 1 ∧ 1 < 2 - 1 then a + [10, 20].getD 1 0 else a)) := by
  obtain ⟨m2, hm2, hchar⟩ := (C4_vec_ops (· + ·) ⟨2, 2, [1, 2, 3, 4], false⟩
    [10, 20]).2.2 2 rfl rfl (by decide) rfl rfl
  exact ⟨m2, hm2, hchar 0 0 (by decide) (by decide), hchar 1 1 (by decide) (by decide)⟩

end MathRepo
